import Mathlib

/-!
Shallow embedding of the `RecordManager` job-status registry
(`src/unnamed/part_001` of the repository).

The registry keeps a `Map<string, FileRecord>`; each record carries per-job
fields and a `logs` object mapping stage identifiers (`Action`) to event
entries (`LogEntry`).  JavaScript `Map`s and plain objects iterate string keys
in insertion order, and assigning to an existing key replaces the value while
keeping its position; both are embedded as association lists whose update
functions replace the first occurrence in place and append fresh keys at the
end.

Timestamps: the source stores `moment().format("YYYY-MM-DD HH:mm:ss")` (a
second-precision rendering of the wall clock) and `getLastStep` compares
entries with `moment(a).isAfter(moment(b))`, i.e. by the parsed instant.
Formatting and reparsing round-trips at second precision, so the embedding
carries the instant itself as a `Nat` of seconds; each mutating operation
takes the current clock reading `now : Nat` as an explicit argument, and
`isAfter` is the strict order on those instants.  Distinct calls may receive
equal `now` values (the clock has only second precision).
-/

namespace RecordManager

/-- `FileStatus` from the source: coarse per-job status. -/
inductive FileStatus where
  | queued
  | processing
  | completed
  | error
  | bypassed
  deriving DecidableEq, Repr

/-- The `Action` enum from the source: the fixed catalog of stage
identifiers.  In TypeScript each member carries a distinct display string;
the members themselves are the keys of the `logs` object, so the embedding
keeps them as a plain enumerated type. -/
inductive Action where
  | CLEANUP
  | CLEANUP_DONE
  | RENAME
  | RENAME_DONE
  | EXTRACT
  | EXTRACT_DONE
  | MOVING_ATTACHMENT
  | MOVING_ATTACHEMENT_DONE
  | CLASSIFY
  | CLASSIFY_DONE
  | TAGGING
  | TAGGING_DONE
  | APPLYING_TAGS
  | APPLYING_TAGS_DONE
  | RECOMMEND_NAME
  | RECOMMEND_NAME_DONE
  | CONTAINER
  | APPEND
  | APPEND_DONE
  | ERROR_APPEND
  | ERROR_COMPLETE
  | ERROR_VALIDATE
  | ERROR_CONTAINER
  | CONTAINER_DONE
  | APPLYING_NAME
  | APPLYING_NAME_DONE
  | FORMATTING
  | FORMATTING_DONE
  | MOVING
  | MOVING_DONE
  | COMPLETED
  | VALIDATE
  | VALIDATE_DONE
  | ERROR_CLEANUP
  | ERROR_RENAME
  | ERROR_EXTRACT
  | ERROR_MOVING_ATTACHMENT
  | ERROR_CLASSIFY
  | ERROR_TAGGING
  | ERROR_FORMATTING
  | ERROR_MOVING
  deriving DecidableEq, Repr, Fintype

/-- The error payload of a `LogEntry` (`LogEntry["error"]` in the source):
`{ message, stack?, action }`. -/
structure ErrInfo where
  message : String
  stack : Option String
  action : Action
  deriving DecidableEq, Repr

/-- `LogEntry` from the source: `{ timestamp, completed?, error? }`.  The
timestamp is embedded as the `Nat` instant at second precision (see the
file header); `completed` is optional in the TypeScript type but every code
path that writes an entry sets it, so it is a plain `Bool` here. -/
structure LogEntry where
  timestamp : Nat
  completed : Bool
  error : Option ErrInfo
  deriving DecidableEq, Repr

/-- The opaque external resource handle (`TFile` of the Obsidian API).  The
registry stores and returns it without interpreting it, so a wrapped string
stands in for it. -/
structure TFile where
  path : String
  deriving DecidableEq, Repr

/-- `FileRecord` from the source. -/
structure FileRecord where
  id : String
  tags : List String
  classification : Option String
  formatted : Bool
  newPath : Option String
  newName : Option String
  originalName : String
  logs : List (Action × LogEntry)
  status : FileStatus
  file : Option TFile
  deriving DecidableEq, Repr

/-- The registry state: the `records : Map<string, FileRecord>` of the
`RecordManager` singleton, as an insertion-ordered association list. -/
structure RMState where
  records : List (String × FileRecord)
  deriving DecidableEq, Repr

/-- First-occurrence lookup in the per-record `logs` object
(`record.logs[step]`). -/
def lookupLog (logs : List (Action × LogEntry)) (a : Action) : Option LogEntry :=
  match logs with
  | [] => none
  | (b, e) :: rest => if b = a then some e else lookupLog rest a

/-- JavaScript `record.logs[a] = e`: replace the value of an existing key in
place (keeping its iteration position), or append a fresh key at the end. -/
def setLog (logs : List (Action × LogEntry)) (a : Action) (e : LogEntry) :
    List (Action × LogEntry) :=
  match logs with
  | [] => [(a, e)]
  | (b, e0) :: rest =>
    if b = a then (a, e) :: rest else (b, e0) :: setLog rest a e

/-- The in-place mutation `record.logs[a].completed = true` of `addAction`:
only the `completed` flag of the existing entry changes; its timestamp,
error payload and iteration position are untouched. -/
def markCompleted (logs : List (Action × LogEntry)) (a : Action) :
    List (Action × LogEntry) :=
  match logs with
  | [] => []
  | (b, e) :: rest =>
    if b = a then (b, { e with completed := true }) :: rest
    else (b, e) :: markCompleted rest a

/-- `this.records.get(hash)`. -/
def lookupRecord (recs : List (String × FileRecord)) (hash : String) :
    Option FileRecord :=
  match recs with
  | [] => none
  | (h, r) :: rest => if h = hash then some r else lookupRecord rest hash

/-- The shared pattern `const record = this.records.get(hash); if (record)
{ mutate record }` of every mutator: update the record in place when
present, leave the map untouched otherwise. -/
def updateRecord (recs : List (String × FileRecord)) (hash : String)
    (f : FileRecord → FileRecord) : List (String × FileRecord) :=
  match recs with
  | [] => []
  | (h, r) :: rest =>
    if h = hash then (h, f r) :: rest else (h, r) :: updateRecord rest hash f

/-- `startTracking(hash, originalName)`: insert a fresh record iff the id is
absent; always return the id.  `Map.set` on an absent key appends. -/
def startTracking (st : RMState) (hash : String) (originalName : String) :
    String × RMState :=
  if (lookupRecord st.records hash).isSome then (hash, st)
  else
    (hash,
      { records :=
          st.records ++
            [(hash,
              { id := hash
                file := none
                tags := []
                formatted := false
                logs := []
                status := FileStatus.queued
                originalName := originalName
                classification := none
                newPath := none
                newName := none })] })

/-- `setFile(hash, file)`. -/
def setFile (st : RMState) (hash : String) (file : TFile) : RMState :=
  { records := updateRecord st.records hash (fun r => { r with file := some file }) }

/-- `setStatus(hash, status)`. -/
def setStatus (st : RMState) (hash : String) (status : FileStatus) : RMState :=
  { records := updateRecord st.records hash (fun r => { r with status := status }) }

/-- `getBaseAction(completedStep)`: the static reverse table mapping each
"done" stage identifier to its paired "start" identifier; every other
stage maps to nothing. -/
def getBaseAction (completedStep : Action) : Option Action :=
  match completedStep with
  | Action.CLEANUP_DONE => some Action.CLEANUP
  | Action.RENAME_DONE => some Action.RENAME
  | Action.EXTRACT_DONE => some Action.EXTRACT
  | Action.MOVING_ATTACHEMENT_DONE => some Action.MOVING_ATTACHMENT
  | Action.CLASSIFY_DONE => some Action.CLASSIFY
  | Action.TAGGING_DONE => some Action.TAGGING
  | Action.APPLYING_TAGS_DONE => some Action.APPLYING_TAGS
  | Action.RECOMMEND_NAME_DONE => some Action.RECOMMEND_NAME
  | Action.APPLYING_NAME_DONE => some Action.APPLYING_NAME
  | Action.FORMATTING_DONE => some Action.FORMATTING
  | Action.MOVING_DONE => some Action.MOVING
  | _ => none

/-- `addAction(hash, step, completed = false)` at clock reading `now`: when
`completed` is true and the paired start entry exists, flip its `completed`
flag in place and stop; otherwise write a fresh entry for `step` itself. -/
def addAction (st : RMState) (hash : String) (step : Action)
    (completed : Bool) (now : Nat) : RMState :=
  { records :=
      updateRecord st.records hash (fun record =>
        if completed then
          match getBaseAction step with
          | some base =>
            match lookupLog record.logs base with
            | some _ => { record with logs := markCompleted record.logs base }
            | none =>
              { record with
                  logs := setLog record.logs step
                    { timestamp := now, completed := completed, error := none } }
          | none =>
            { record with
                logs := setLog record.logs step
                  { timestamp := now, completed := completed, error := none } }
        else
          { record with
              logs := setLog record.logs step
                { timestamp := now, completed := completed, error := none } }) }

/-- `addTag(hash, tag)`: push the tag iff not already present. -/
def addTag (st : RMState) (hash : String) (tag : String) : RMState :=
  { records :=
      updateRecord st.records hash (fun r =>
        if r.tags.contains tag then r else { r with tags := r.tags ++ [tag] }) }

/-- `setTags(hash, tags)`: full replacement by the supplied array. -/
def setTags (st : RMState) (hash : String) (tags : List String) : RMState :=
  { records := updateRecord st.records hash (fun r => { r with tags := tags }) }

/-- `setClassification(hash, classification)`. -/
def setClassification (st : RMState) (hash : String) (classification : String) :
    RMState :=
  { records :=
      updateRecord st.records hash
        (fun r => { r with classification := some classification }) }

/-- `setFormatted(hash, formatted)`. -/
def setFormatted (st : RMState) (hash : String) (formatted : Bool) : RMState :=
  { records :=
      updateRecord st.records hash (fun r => { r with formatted := formatted }) }

/-- `setNewPath(hash, newPath)`. -/
def setNewPath (st : RMState) (hash : String) (newPath : String) : RMState :=
  { records :=
      updateRecord st.records hash (fun r => { r with newPath := some newPath }) }

/-- `setNewName(hash, newName)`. -/
def setNewName (st : RMState) (hash : String) (newName : String) : RMState :=
  { records :=
      updateRecord st.records hash (fun r => { r with newName := some newName }) }

/-- `addError(hash, { action, message, stack? })` at clock reading `now`:
unconditionally overwrite the entry for `action` with a fresh timestamp,
`completed: false`, and the supplied payload. -/
def addError (st : RMState) (hash : String) (action : Action)
    (message : String) (stack : Option String) (now : Nat) : RMState :=
  { records :=
      updateRecord st.records hash (fun record =>
        { record with
            logs := setLog record.logs action
              { timestamp := now
                completed := false
                error := some { message := message, stack := stack, action := action } } }) }

/-- `getRecord(hash)`. -/
def getRecord (st : RMState) (hash : String) : Option FileRecord :=
  lookupRecord st.records hash

/-- `getStepLogs(hash, step)`. -/
def getStepLogs (st : RMState) (hash : String) (step : Action) : Option LogEntry :=
  match lookupRecord st.records hash with
  | none => none
  | some record => lookupLog record.logs step

/-- `hasErrors(hash, step?)`: with a stage, whether that stage's entry
carries an error; without, whether any entry does.  Unknown ids yield
`false`. -/
def hasErrors (st : RMState) (hash : String) (step : Option Action) : Bool :=
  match lookupRecord st.records hash with
  | none => false
  | some record =>
    match step with
    | some s =>
      match lookupLog record.logs s with
      | some e => e.error.isSome
      | none => false
    | none => record.logs.any (fun p => p.2.error.isSome)

/-- One reduction step of the `reduce` in `getLastStep`: keep the current
candidate unless the new entry's parsed timestamp `isAfter` (is strictly
greater than) the candidate's; a missing candidate is replaced outright.
The candidate's timestamp is re-read from the full `logs`, exactly as the
source closure reads `record.logs[latest].timestamp`. -/
def lastStepStep (logs : List (Action × LogEntry)) (latest : Option Action)
    (p : Action × LogEntry) : Option Action :=
  match latest with
  | none => some p.1
  | some cur =>
    match lookupLog logs cur with
    | some ce => if ce.timestamp < p.2.timestamp then some p.1 else some cur
    | none => some p.1

/-- `getLastStep(hash)`: fold the entries of the `logs` object in insertion
order with `lastStepStep`; `null` for an unknown id or an empty log. -/
def getLastStep (st : RMState) (hash : String) : Option Action :=
  match lookupRecord st.records hash with
  | none => none
  | some record =>
    if record.logs.isEmpty then none
    else record.logs.foldl (lastStepStep record.logs) none

/-- `getStepErrors(hash)`: the `{ action, error }` pairs of exactly the
entries carrying an error, in the iteration (insertion) order of `logs`;
empty for an unknown id. -/
def getStepErrors (st : RMState) (hash : String) :
    List (Action × Option ErrInfo) :=
  match lookupRecord st.records hash with
  | none => []
  | some record =>
    (record.logs.filter (fun p => p.2.error.isSome)).map (fun p => (p.1, p.2.error))

/-- `getLastError(hash)`: `errors[errors.length - 1]` when non-empty, else
`null`. -/
def getLastError (st : RMState) (hash : String) :
    Option (Action × Option ErrInfo) :=
  let errors := getStepErrors st hash
  if 0 < errors.length then errors[errors.length - 1]? else none

/-- Well-formedness of a `logs` object: each stage key occurs at most once.
Every state reachable through the operations satisfies it (JavaScript
objects cannot hold a key twice). -/
def keysNodup (logs : List (Action × LogEntry)) : Prop :=
  (logs.map Prod.fst).Nodup

instance (logs : List (Action × LogEntry)) : Decidable (keysNodup logs) := by
  unfold keysNodup; infer_instance

/-- How many entries of the `logs` object carry the key `a` ("exactly one
entry per stage" is `countKey logs a = 1`). -/
def countKey (logs : List (Action × LogEntry)) (a : Action) : Nat :=
  (logs.map Prod.fst).count a

theorem updateRecord_absent (recs : List (String × FileRecord)) (hash : String)
    (f : FileRecord → FileRecord) (h : lookupRecord recs hash = none) :
    updateRecord recs hash f = recs := by
  induction recs with
  | nil => rfl
  | cons p rest ih =>
    obtain ⟨h0, r0⟩ := p
    by_cases hh : h0 = hash
    · simp [lookupRecord, hh] at h
    · simp only [lookupRecord, hh, if_false] at h
      simp [updateRecord, hh, ih h]

theorem lookupRecord_update_self (recs : List (String × FileRecord))
    (hash : String) (f : FileRecord → FileRecord) :
    lookupRecord (updateRecord recs hash f) hash = (lookupRecord recs hash).map f := by
  induction recs with
  | nil => rfl
  | cons p rest ih =>
    obtain ⟨h0, r0⟩ := p
    by_cases hh : h0 = hash
    · simp [updateRecord, lookupRecord, hh]
    · simp [updateRecord, lookupRecord, hh, ih]

theorem lookupLog_setLog_self (logs : List (Action × LogEntry)) (a : Action)
    (e : LogEntry) : lookupLog (setLog logs a e) a = some e := by
  induction logs with
  | nil => simp [setLog, lookupLog]
  | cons p rest ih =>
    obtain ⟨b, e0⟩ := p
    by_cases hb : b = a
    · simp [setLog, lookupLog, hb]
    · simp [setLog, lookupLog, hb, ih]

theorem lookupLog_setLog_ne (logs : List (Action × LogEntry)) (a b : Action)
    (e : LogEntry) (h : b ≠ a) :
    lookupLog (setLog logs a e) b = lookupLog logs b := by
  induction logs with
  | nil => simp [setLog, lookupLog, h, Ne.symm h]
  | cons p rest ih =>
    obtain ⟨c, e0⟩ := p
    by_cases hc : c = a
    · subst hc
      simp [setLog, lookupLog, Ne.symm h]
    · by_cases hcb : c = b
      · simp [setLog, lookupLog, hc, hcb, h]
      · simp [setLog, lookupLog, hc, hcb, ih]

theorem lookupLog_markCompleted_self (logs : List (Action × LogEntry)) (a : Action) :
    lookupLog (markCompleted logs a) a
      = (lookupLog logs a).map (fun e => { e with completed := true }) := by
  induction logs with
  | nil => rfl
  | cons p rest ih =>
    obtain ⟨b, e0⟩ := p
    by_cases hb : b = a
    · simp [markCompleted, lookupLog, hb]
    · simp [markCompleted, lookupLog, hb, ih]

theorem lookupLog_markCompleted_ne (logs : List (Action × LogEntry)) (a b : Action)
    (h : b ≠ a) : lookupLog (markCompleted logs a) b = lookupLog logs b := by
  induction logs with
  | nil => rfl
  | cons p rest ih =>
    obtain ⟨c, e0⟩ := p
    by_cases hc : c = a
    · subst hc
      simp [markCompleted, lookupLog, Ne.symm h]
    · by_cases hcb : c = b
      · simp [markCompleted, lookupLog, hc, hcb, h]
      · simp [markCompleted, lookupLog, hc, hcb, ih]

theorem keys_markCompleted (logs : List (Action × LogEntry)) (a : Action) :
    (markCompleted logs a).map Prod.fst = logs.map Prod.fst := by
  induction logs with
  | nil => rfl
  | cons p rest ih =>
    obtain ⟨b, e0⟩ := p
    by_cases hb : b = a
    · simp [markCompleted, hb]
    · simp [markCompleted, hb, ih]

theorem keys_setLog (logs : List (Action × LogEntry)) (a : Action) (e : LogEntry) :
    (setLog logs a e).map Prod.fst =
      if a ∈ logs.map Prod.fst then logs.map Prod.fst
      else logs.map Prod.fst ++ [a] := by
  induction logs with
  | nil => simp [setLog]
  | cons p rest ih =>
    obtain ⟨b, e0⟩ := p
    by_cases hb : b = a
    · simp [setLog, hb]
    · simp only [setLog, hb, if_false, List.map_cons]
      rw [ih]
      by_cases hmem : a ∈ rest.map Prod.fst
      · simp [hmem, Ne.symm hb]
      · simp [hmem, Ne.symm hb]

theorem lookupLog_eq_none_iff (logs : List (Action × LogEntry)) (a : Action) :
    lookupLog logs a = none ↔ a ∉ logs.map Prod.fst := by
  induction logs with
  | nil => simp [lookupLog]
  | cons p rest ih =>
    obtain ⟨b, e0⟩ := p
    by_cases hb : b = a
    · simp [lookupLog, hb]
    · simp [lookupLog, hb, ih, Ne.symm hb]

theorem lookupLog_of_mem_nodup (logs : List (Action × LogEntry))
    (hnd : keysNodup logs) (a : Action) (e : LogEntry) (hmem : (a, e) ∈ logs) :
    lookupLog logs a = some e := by
  induction logs with
  | nil => simp at hmem
  | cons p rest ih =>
    obtain ⟨b, e0⟩ := p
    simp only [keysNodup, List.map_cons, List.nodup_cons] at hnd
    rcases List.mem_cons.mp hmem with hpe | hrest
    · cases hpe
      simp [lookupLog]
    · by_cases hb : b = a
      · subst hb
        exact absurd (List.mem_map_of_mem Prod.fst hrest) hnd.1
      · simpa [lookupLog, hb] using ih hnd.2 hrest

theorem keysNodup_setLog (logs : List (Action × LogEntry)) (a : Action)
    (e : LogEntry) (hnd : keysNodup logs) : keysNodup (setLog logs a e) := by
  unfold keysNodup at hnd ⊢
  rw [keys_setLog]
  by_cases hmem : a ∈ logs.map Prod.fst
  · simpa [hmem] using hnd
  · rw [if_neg hmem]
    refine List.Nodup.append hnd (List.nodup_singleton a) ?_
    intro x hx hxa
    rw [List.mem_singleton] at hxa
    exact hmem (hxa ▸ hx)

theorem keysNodup_markCompleted (logs : List (Action × LogEntry)) (a : Action)
    (hnd : keysNodup logs) : keysNodup (markCompleted logs a) := by
  unfold keysNodup at hnd ⊢
  rwa [keys_markCompleted]

theorem countKey_of_nodup (logs : List (Action × LogEntry)) (a : Action)
    (hnd : keysNodup logs) :
    countKey logs a = if (lookupLog logs a).isSome then 1 else 0 := by
  unfold keysNodup at hnd
  unfold countKey
  by_cases hmem : a ∈ logs.map Prod.fst
  · have hlk : lookupLog logs a ≠ none := by
      intro hn
      exact absurd ((lookupLog_eq_none_iff logs a).mp hn) (not_not_intro hmem)
    have : (lookupLog logs a).isSome := Option.ne_none_iff_isSome.mp hlk
    rw [if_pos this]
    have hle := List.nodup_iff_count_le_one.mp hnd a
    have hge := List.count_pos_iff.mpr hmem
    omega
  · have hlk : lookupLog logs a = none := (lookupLog_eq_none_iff logs a).mpr hmem
    simp [hlk, List.count_eq_zero_of_not_mem hmem]

theorem countKey_markCompleted (logs : List (Action × LogEntry)) (a b : Action) :
    countKey (markCompleted logs a) b = countKey logs b := by
  unfold countKey
  rw [keys_markCompleted]

theorem lookupRecord_append_absent (recs : List (String × FileRecord))
    (hash : String) (r : FileRecord) (h : lookupRecord recs hash = none) :
    lookupRecord (recs ++ [(hash, r)]) hash = some r := by
  induction recs with
  | nil => simp [lookupRecord]
  | cons p rest ih =>
    obtain ⟨h0, r0⟩ := p
    by_cases hh : h0 = hash
    · simp [lookupRecord, hh] at h
    · simp only [lookupRecord, hh, if_false] at h
      simp [lookupRecord, hh, ih h]

theorem lookupRecord_mem (recs : List (String × FileRecord)) (hash : String)
    (r : FileRecord) (h : lookupRecord recs hash = some r) : (hash, r) ∈ recs := by
  induction recs with
  | nil => simp [lookupRecord] at h
  | cons p rest ih =>
    obtain ⟨h0, r0⟩ := p
    by_cases hh : h0 = hash
    · subst hh
      simp only [lookupRecord, if_true] at h
      rw [Option.some.injEq] at h
      subst h
      exact List.mem_cons_self _ _
    · simp only [lookupRecord, hh, if_false] at h
      exact List.mem_cons_of_mem _ (ih h)

theorem nodup_append_singleton {α : Type} (l : List α) (a : α) (hmem : a ∉ l)
    (hl : l.Nodup) : (l ++ [a]).Nodup := by
  refine List.Nodup.append hl (List.nodup_singleton a) ?_
  intro x hx hxa
  rw [List.mem_singleton] at hxa
  exact hmem (hxa ▸ hx)

/-- No "done" stage is its own paired start stage: the reverse table never
maps a key to itself. -/
theorem baseActionNeSelf : ∀ d s : Action, getBaseAction d = some s → s ≠ d := by
  decide

/-- C3: `startTracking(id, originalName)` always returns `id`; it leaves the
state completely unchanged when a record for `id` already exists (idempotent
create, however the existing record was mutated since creation), and when
none exists it appends exactly one fresh record with status `queued`, empty
tags, empty event mapping and no file handle. -/
theorem startTracking_idempotent (st : RMState) (hash originalName : String) :
    (startTracking st hash originalName).1 = hash ∧
    (∀ r, lookupRecord st.records hash = some r →
      (startTracking st hash originalName).2 = st) ∧
    (lookupRecord st.records hash = none →
      (startTracking st hash originalName).2.records
        = st.records ++ [(hash,
            { id := hash, tags := [], classification := none, formatted := false,
              newPath := none, newName := none, originalName := originalName,
              logs := [], status := FileStatus.queued, file := none })] ∧
      lookupRecord (startTracking st hash originalName).2.records hash
        = some { id := hash, tags := [], classification := none, formatted := false,
                 newPath := none, newName := none, originalName := originalName,
                 logs := [], status := FileStatus.queued, file := none }) := by
  refine ⟨?_, ?_, ?_⟩
  · unfold startTracking
    by_cases h : (lookupRecord st.records hash).isSome <;> simp [h]
  · intro r hr
    unfold startTracking
    simp [hr]
  · intro h
    have hs : (startTracking st hash originalName).2.records
        = st.records ++ [(hash,
            { id := hash, tags := [], classification := none, formatted := false,
              newPath := none, newName := none, originalName := originalName,
              logs := [], status := FileStatus.queued, file := none })] := by
      unfold startTracking
      rw [h]
      rfl
    refine ⟨hs, ?_⟩
    rw [hs]
    exact lookupRecord_append_absent st.records hash _ h

/-- C3 witness: concrete run on an empty registry and on a registry already
holding the id. -/
theorem startTracking_idempotent_witness :
    ((startTracking { records := [] } "h1" "doc.pdf").1 = "h1" ∧
      (∀ r, lookupRecord (RMState.records { records := [] }) "h1" = some r →
        (startTracking { records := [] } "h1" "doc.pdf").2 = { records := [] }) ∧
      (lookupRecord (RMState.records { records := [] }) "h1" = none →
        (startTracking { records := [] } "h1" "doc.pdf").2.records
          = [] ++ [("h1",
              { id := "h1", tags := [], classification := none, formatted := false,
                newPath := none, newName := none, originalName := "doc.pdf",
                logs := [], status := FileStatus.queued, file := none })] ∧
        lookupRecord (startTracking { records := [] } "h1" "doc.pdf").2.records "h1"
          = some { id := "h1", tags := [], classification := none, formatted := false,
                   newPath := none, newName := none, originalName := "doc.pdf",
                   logs := [], status := FileStatus.queued, file := none })) ∧
    (startTracking (startTracking { records := [] } "h1" "doc.pdf").2 "h1" "other").2
      = (startTracking { records := [] } "h1" "doc.pdf").2 := by
  constructor
  · exact startTracking_idempotent { records := [] } "h1" "doc.pdf"
  · exact (startTracking_idempotent
      (startTracking { records := [] } "h1" "doc.pdf").2 "h1" "other").2.1
      { id := "h1", tags := [], classification := none, formatted := false,
        newPath := none, newName := none, originalName := "doc.pdf",
        logs := [], status := FileStatus.queued, file := none } (by decide)

/-- C4: on an id with no record, every field mutator and event operation of
the registry is a silent no-op: the whole state is returned unchanged and no
record is created. -/
theorem unknown_id_inert (st : RMState) (hash : String)
    (h : lookupRecord st.records hash = none) :
    (∀ file, setFile st hash file = st) ∧
    (∀ status, setStatus st hash status = st) ∧
    (∀ tag, addTag st hash tag = st) ∧
    (∀ tags, setTags st hash tags = st) ∧
    (∀ c, setClassification st hash c = st) ∧
    (∀ b, setFormatted st hash b = st) ∧
    (∀ p, setNewPath st hash p = st) ∧
    (∀ n, setNewName st hash n = st) ∧
    (∀ step completed now, addAction st hash step completed now = st) ∧
    (∀ a msg stk now, addError st hash a msg stk now = st) := by
  refine ⟨?_, ?_, ?_, ?_, ?_, ?_, ?_, ?_, ?_, ?_⟩ <;>
    intros <;>
    simp only [setFile, setStatus, addTag, setTags, setClassification,
      setFormatted, setNewPath, setNewName, addAction, addError,
      updateRecord_absent _ _ _ h]

/-- C4 witness: the mutators at a concrete unknown id on a concrete state. -/
theorem unknown_id_inert_witness :
    lookupRecord (RMState.records { records := [] }) "nope" = none ∧
    setStatus { records := [] } "nope" FileStatus.completed = { records := [] } ∧
    addTag { records := [] } "nope" "x" = { records := [] } ∧
    addAction { records := [] } "nope" Action.CLASSIFY false 3 = { records := [] } ∧
    addError { records := [] } "nope" Action.TAGGING "m" none 4 = { records := [] } := by
  have h : lookupRecord (RMState.records { records := [] }) "nope" = none := by decide
  have hmain := unknown_id_inert { records := [] } "nope" h
  exact ⟨h, hmain.2.1 FileStatus.completed, hmain.2.2.1 "x",
    hmain.2.2.2.2.2.2.2.2.1 Action.CLASSIFY false 3,
    hmain.2.2.2.2.2.2.2.2.2 Action.TAGGING "m" none 4⟩

/-- Sample registry used by the witnesses: one job `"h1"` named
`"doc.pdf"`, freshly registered. -/
def stW : RMState := (startTracking { records := [] } "h1" "doc.pdf").2

/-- The record `stW` holds for `"h1"`. -/
def rW : FileRecord :=
  { id := "h1", tags := [], classification := none, formatted := false,
    newPath := none, newName := none, originalName := "doc.pdf",
    logs := [], status := FileStatus.queued, file := none }

/-- C2: `addError` unconditionally overwrites the event entry for the given
stage with a fresh-timestamp, `completed = false` entry carrying the supplied
message, stack and stage — whatever entry (including a completed success
marker) was there before is gone, and the stage still has exactly one
entry. -/
theorem addError_overwrites (st : RMState) (hash : String) (r : FileRecord)
    (hreg : lookupRecord st.records hash = some r) (stage : Action)
    (msg : String) (stk : Option String) (now : Nat) :
    ∃ r2, lookupRecord (addError st hash stage msg stk now).records hash = some r2 ∧
      lookupLog r2.logs stage = some
        { timestamp := now, completed := false,
          error := some { message := msg, stack := stk, action := stage } } ∧
      (∀ b, b ≠ stage → lookupLog r2.logs b = lookupLog r.logs b) ∧
      (keysNodup r.logs → countKey r2.logs stage = 1) := by
  refine ⟨{ r with logs := setLog r.logs stage ⟨now, false, some ⟨msg, stk, stage⟩⟩ },
    ?_, ?_, ?_, ?_⟩
  · unfold addError
    rw [lookupRecord_update_self, hreg, Option.map_some']
  · exact lookupLog_setLog_self r.logs stage _
  · intro b hb
    exact lookupLog_setLog_ne r.logs stage b _ hb
  · intro hnd
    rw [countKey_of_nodup _ _ (keysNodup_setLog r.logs stage _ hnd),
      lookupLog_setLog_self]
    rfl

/-- C2 witness: overwrite a completed `CLASSIFY` success marker with an
error at the concrete sample registry. -/
theorem addError_overwrites_witness :
    lookupRecord (addAction stW "h1" Action.CLASSIFY true 3).records "h1"
      = some { rW with logs := [(Action.CLASSIFY,
          { timestamp := 3, completed := true, error := none })] } ∧
    ∃ r2, lookupRecord (addError (addAction stW "h1" Action.CLASSIFY true 3)
        "h1" Action.CLASSIFY "m" none 9).records "h1" = some r2 ∧
      lookupLog r2.logs Action.CLASSIFY = some
        { timestamp := 9, completed := false,
          error := some { message := "m", stack := none, action := Action.CLASSIFY } } ∧
      (∀ b, b ≠ Action.CLASSIFY →
        lookupLog r2.logs b = lookupLog ({ rW with logs := [(Action.CLASSIFY,
          { timestamp := 3, completed := true, error := none })] } : FileRecord).logs b) ∧
      (keysNodup ({ rW with logs := [(Action.CLASSIFY,
          { timestamp := 3, completed := true, error := none })] } : FileRecord).logs →
        countKey r2.logs Action.CLASSIFY = 1) := by
  constructor
  · decide
  · exact addError_overwrites (addAction stW "h1" Action.CLASSIFY true 3) "h1"
      ({ rW with logs := [(Action.CLASSIFY,
          { timestamp := 3, completed := true, error := none })] })
      (by decide) Action.CLASSIFY "m" none 9

/-- C5: `addAction(id, stage, true)` when the pairing table has no entry for
`stage`, or the paired start stage has no logged entry, falls back to writing
exactly one fresh entry keyed by `stage` itself, timestamped now and
`completed = true`; every other stage's entry is untouched. -/
theorem addAction_fallback (st : RMState) (hash : String) (r : FileRecord)
    (hreg : lookupRecord st.records hash = some r) (step : Action) (now : Nat)
    (hmiss : ∀ base, getBaseAction step = some base → lookupLog r.logs base = none) :
    ∃ r2, lookupRecord (addAction st hash step true now).records hash = some r2 ∧
      r2.logs = setLog r.logs step { timestamp := now, completed := true, error := none } ∧
      lookupLog r2.logs step = some { timestamp := now, completed := true, error := none } ∧
      (∀ b, b ≠ step → lookupLog r2.logs b = lookupLog r.logs b) ∧
      (keysNodup r.logs → countKey r2.logs step = 1) := by
  refine ⟨{ r with logs := setLog r.logs step ⟨now, true, none⟩ }, ?_, rfl, ?_, ?_, ?_⟩
  · unfold addAction
    rw [lookupRecord_update_self, hreg, Option.map_some']
    cases hg : getBaseAction step with
    | none => rfl
    | some base => simp [hmiss base hg]
  · exact lookupLog_setLog_self r.logs step _
  · intro b hb
    exact lookupLog_setLog_ne r.logs step b _ hb
  · intro hnd
    rw [countKey_of_nodup _ _ (keysNodup_setLog r.logs step _ hnd),
      lookupLog_setLog_self]
    rfl

/-- C5 witness: completing `CLASSIFY_DONE` with no prior `CLASSIFY` entry on
the concrete sample registry logs the done-stage key directly. -/
theorem addAction_fallback_witness :
    ∃ r2, lookupRecord (addAction stW "h1" Action.CLASSIFY_DONE true 5).records "h1"
        = some r2 ∧
      r2.logs = setLog rW.logs Action.CLASSIFY_DONE
        { timestamp := 5, completed := true, error := none } ∧
      lookupLog r2.logs Action.CLASSIFY_DONE
        = some { timestamp := 5, completed := true, error := none } ∧
      (∀ b, b ≠ Action.CLASSIFY_DONE → lookupLog r2.logs b = lookupLog rW.logs b) ∧
      (keysNodup rW.logs → countKey r2.logs Action.CLASSIFY_DONE = 1) :=
  addAction_fallback stW "h1" rW (by decide) Action.CLASSIFY_DONE 5 (by decide)

/-- `addAction` with `completed = true` when the paired start entry exists:
the updated record keeps everything but gets `markCompleted` applied to its
logs.  Shared by the pairing and the frame-effect theorems. -/
theorem addAction_found_lookup (st : RMState) (hash : String)
    (r : FileRecord) (hreg : lookupRecord st.records hash = some r)
    (sdone s : Action) (hpair : getBaseAction sdone = some s) (e : LogEntry)
    (he : lookupLog r.logs s = some e) (now : Nat) :
    lookupRecord (addAction st hash sdone true now).records hash
      = some ({ r with logs := markCompleted r.logs s }) := by
  unfold addAction
  rw [lookupRecord_update_self, hreg, Option.map_some']
  simp [hpair, he]

/-- C9: when the paired start entry exists (whatever it holds, e.g. an error
written by `addError`), `addAction(id, S_DONE, true)` only flips its
`completed` flag: timestamp and error payload survive, so an errored entry
becomes `completed = true` while `hasErrors(id, S)` stays true. -/
theorem addAction_completes_error_entry (st : RMState) (hash : String)
    (r : FileRecord) (hreg : lookupRecord st.records hash = some r)
    (sdone s : Action) (hpair : getBaseAction sdone = some s) (e : LogEntry)
    (he : lookupLog r.logs s = some e) (now : Nat) :
    ∃ r2, lookupRecord (addAction st hash sdone true now).records hash = some r2 ∧
      r2.logs = markCompleted r.logs s ∧
      lookupLog r2.logs s
        = some { timestamp := e.timestamp, completed := true, error := e.error } ∧
      (e.error.isSome = true →
        hasErrors (addAction st hash sdone true now) hash (some s) = true) := by
  have hrec : lookupRecord (addAction st hash sdone true now).records hash
      = some ({ r with logs := markCompleted r.logs s }) :=
    addAction_found_lookup st hash r hreg sdone s hpair e he now
  refine ⟨{ r with logs := markCompleted r.logs s }, hrec, rfl, ?_, ?_⟩
  · rw [show ({ r with logs := markCompleted r.logs s } : FileRecord).logs
        = markCompleted r.logs s from rfl,
      lookupLog_markCompleted_self, he]
    rfl
  · intro herr
    unfold hasErrors
    rw [hrec]
    simp only
    rw [lookupLog_markCompleted_self, he]
    simpa using herr

/-- C9 witness: an error logged on `CLASSIFY` then `CLASSIFY_DONE` completed
on the concrete sample registry. -/
theorem addAction_completes_error_entry_witness :
    ∃ r2, lookupRecord (addAction (addError stW "h1" Action.CLASSIFY "boom" none 7)
        "h1" Action.CLASSIFY_DONE true 9).records "h1" = some r2 ∧
      r2.logs = markCompleted (RecordManager.FileRecord.logs
        { rW with logs := [(Action.CLASSIFY,
            { timestamp := 7, completed := false,
              error := some { message := "boom", stack := none, action := Action.CLASSIFY } })] })
        Action.CLASSIFY ∧
      lookupLog r2.logs Action.CLASSIFY = some
        { timestamp := 7, completed := true,
          error := some { message := "boom", stack := none, action := Action.CLASSIFY } } ∧
      ((some ({ message := "boom", stack := none, action := Action.CLASSIFY } : ErrInfo)).isSome = true →
        hasErrors (addAction (addError stW "h1" Action.CLASSIFY "boom" none 7)
          "h1" Action.CLASSIFY_DONE true 9) "h1" (some Action.CLASSIFY) = true) :=
  addAction_completes_error_entry (addError stW "h1" Action.CLASSIFY "boom" none 7)
    "h1"
    ({ rW with logs := [(Action.CLASSIFY,
        { timestamp := 7, completed := false,
          error := some { message := "boom", stack := none, action := Action.CLASSIFY } })] })
    (by decide) Action.CLASSIFY_DONE Action.CLASSIFY (by decide)
    { timestamp := 7, completed := false,
      error := some { message := "boom", stack := none, action := Action.CLASSIFY } }
    (by decide) 9

/-- C1: `addAction(id, S)` then `addAction(id, S_DONE, true)` for a paired
stage leaves exactly one entry for the pair, keyed by `S`, `completed = true`
and still carrying the first call's timestamp; no `S_DONE` key is created. -/
theorem addAction_pairing (st : RMState) (hash : String) (r : FileRecord)
    (hreg : lookupRecord st.records hash = some r) (s sdone : Action)
    (hpair : getBaseAction sdone = some s) (hnd : keysNodup r.logs)
    (hnodone : lookupLog r.logs sdone = none) (t1 t2 : Nat) :
    ∃ r2, lookupRecord
        (addAction (addAction st hash s false t1) hash sdone true t2).records hash
        = some r2 ∧
      lookupLog r2.logs s = some { timestamp := t1, completed := true, error := none } ∧
      lookupLog r2.logs sdone = none ∧
      countKey r2.logs s = 1 ∧ countKey r2.logs sdone = 0 := by
  have hne : s ≠ sdone := baseActionNeSelf sdone s hpair
  have hrec1 : lookupRecord (addAction st hash s false t1).records hash
      = some ({ r with logs := setLog r.logs s ⟨t1, false, none⟩ }) := by
    unfold addAction
    rw [lookupRecord_update_self, hreg, Option.map_some']
    rfl
  have hl1s : lookupLog (setLog r.logs s ⟨t1, false, none⟩) s
      = some ⟨t1, false, none⟩ := lookupLog_setLog_self r.logs s _
  have hl1done : lookupLog (setLog r.logs s ⟨t1, false, none⟩) sdone = none := by
    rw [lookupLog_setLog_ne r.logs s sdone _ (Ne.symm hne)]
    exact hnodone
  have hnd1 : keysNodup (setLog r.logs s ⟨t1, false, none⟩) :=
    keysNodup_setLog r.logs s _ hnd
  have hrec2 := addAction_found_lookup (addAction st hash s false t1) hash
    ({ r with logs := setLog r.logs s ⟨t1, false, none⟩ }) hrec1 sdone s hpair
    ⟨t1, false, none⟩ hl1s t2
  refine ⟨_, hrec2, ?_, ?_, ?_, ?_⟩
  · show lookupLog (markCompleted (setLog r.logs s ⟨t1, false, none⟩) s) s
      = some ⟨t1, true, none⟩
    rw [lookupLog_markCompleted_self, hl1s]
    rfl
  · show lookupLog (markCompleted (setLog r.logs s ⟨t1, false, none⟩) s) sdone = none
    rw [lookupLog_markCompleted_ne _ s sdone (Ne.symm hne)]
    exact hl1done
  · show countKey (markCompleted (setLog r.logs s ⟨t1, false, none⟩) s) s = 1
    rw [countKey_markCompleted, countKey_of_nodup _ _ hnd1, hl1s]
    rfl
  · show countKey (markCompleted (setLog r.logs s ⟨t1, false, none⟩) s) sdone = 0
    rw [countKey_markCompleted, countKey_of_nodup _ _ hnd1, hl1done]
    rfl

/-- C1 witness: `CLASSIFY` started at time 3 and completed through
`CLASSIFY_DONE` at time 9 on the concrete sample registry. -/
theorem addAction_pairing_witness :
    ∃ r2, lookupRecord
        (addAction (addAction stW "h1" Action.CLASSIFY false 3)
          "h1" Action.CLASSIFY_DONE true 9).records "h1" = some r2 ∧
      lookupLog r2.logs Action.CLASSIFY
        = some { timestamp := 3, completed := true, error := none } ∧
      lookupLog r2.logs Action.CLASSIFY_DONE = none ∧
      countKey r2.logs Action.CLASSIFY = 1 ∧
      countKey r2.logs Action.CLASSIFY_DONE = 0 :=
  addAction_pairing stW "h1" rW (by decide) Action.CLASSIFY Action.CLASSIFY_DONE
    (by decide) (by decide) (by decide) 3 9

/-- The no-duplicate-tags invariant over the whole registry. -/
def tagsNodupAll (st : RMState) : Prop :=
  ∀ p ∈ st.records, p.2.tags.Nodup

instance (st : RMState) : Decidable (tagsNodupAll st) := by
  unfold tagsNodupAll; infer_instance

theorem mem_updateRecord (recs : List (String × FileRecord)) (hash : String)
    (f : FileRecord → FileRecord) (q : String × FileRecord)
    (hq : q ∈ updateRecord recs hash f) :
    q ∈ recs ∨ ∃ p ∈ recs, q = (p.1, f p.2) := by
  induction recs with
  | nil => simp [updateRecord] at hq
  | cons p0 rest ih =>
    obtain ⟨h0, r0⟩ := p0
    by_cases hh : h0 = hash
    · simp only [updateRecord, hh, if_true] at hq
      rcases List.mem_cons.mp hq with hq0 | hqrest
      · exact Or.inr ⟨(h0, r0), List.mem_cons_self _ _, by simp [hq0, hh]⟩
      · exact Or.inl (List.mem_cons_of_mem _ hqrest)
    · simp only [updateRecord, hh, if_false] at hq
      rcases List.mem_cons.mp hq with hq0 | hqrest
      · exact Or.inl (hq0 ▸ List.mem_cons_self _ _)
      · rcases ih hqrest with h | ⟨p, hp, hqp⟩
        · exact Or.inl (List.mem_cons_of_mem _ h)
        · exact Or.inr ⟨p, List.mem_cons_of_mem _ hp, hqp⟩

theorem tagsNodupAll_updateRecord (recs : List (String × FileRecord))
    (hash : String) (f : FileRecord → FileRecord)
    (hf : ∀ r : FileRecord, r.tags.Nodup → (f r).tags.Nodup)
    (hst : ∀ p ∈ recs, p.2.tags.Nodup) :
    ∀ p ∈ updateRecord recs hash f, p.2.tags.Nodup := by
  intro q hq
  rcases mem_updateRecord recs hash f q hq with hmem | ⟨p, hp, hqp⟩
  · exact hst q hmem
  · rw [hqp]
    exact hf p.2 (hst p hp)

/-- C7 counterexample: the claim "every operation preserves no-duplicate
tags, including setTags" is false on the code — `setTags` assigns its
argument verbatim, so a reachable state holds tags `["x", "x"]`. -/
theorem setTags_duplicates_counterexample :
    (lookupRecord (setTags stW "h1" ["x", "x"]).records "h1").map FileRecord.tags
      = some ["x", "x"] ∧
    ¬ (["x", "x"] : List String).Nodup := by
  constructor
  · decide
  · decide

/-- C7 amended: every operation except `setTags` preserves the
no-duplicate-tags invariant, and `addTag` of a present tag is a no-op (a tag
added twice appears exactly once); `setTags` replaces the collection with
exactly its argument, duplicates included, so it keeps the invariant only
when the supplied list has no duplicates. -/
theorem tags_nodup_amended (st : RMState) (hst : tagsNodupAll st) :
    (∀ hash name, tagsNodupAll (startTracking st hash name).2) ∧
    (∀ hash file, tagsNodupAll (setFile st hash file)) ∧
    (∀ hash status, tagsNodupAll (setStatus st hash status)) ∧
    (∀ hash tag, tagsNodupAll (addTag st hash tag)) ∧
    (∀ hash c, tagsNodupAll (setClassification st hash c)) ∧
    (∀ hash b, tagsNodupAll (setFormatted st hash b)) ∧
    (∀ hash p, tagsNodupAll (setNewPath st hash p)) ∧
    (∀ hash n, tagsNodupAll (setNewName st hash n)) ∧
    (∀ hash step c now, tagsNodupAll (addAction st hash step c now)) ∧
    (∀ hash a msg stk now, tagsNodupAll (addError st hash a msg stk now)) ∧
    (∀ hash tag r, lookupRecord st.records hash = some r → r.tags.Nodup →
      ∃ r2, lookupRecord (addTag (addTag st hash tag) hash tag).records hash
          = some r2 ∧
        r2.tags.count tag = 1 ∧ r2.tags.Nodup) ∧
    (∀ hash ts r, lookupRecord st.records hash = some r →
      ∃ r2, lookupRecord (setTags st hash ts).records hash = some r2 ∧
        r2.tags = ts) := by
  refine ⟨?_, ?_, ?_, ?_, ?_, ?_, ?_, ?_, ?_, ?_, ?_, ?_⟩
  · intro hash name
    unfold startTracking
    by_cases h : (lookupRecord st.records hash).isSome
    · simpa [h] using hst
    · simp only [h, if_false]
      intro p hp
      rcases List.mem_append.mp hp with hmem | hnew
      · exact hst p hmem
      · rw [List.mem_singleton] at hnew
        subst hnew
        exact List.nodup_nil
  · intro hash file
    exact tagsNodupAll_updateRecord st.records hash _ (fun r hr => hr) hst
  · intro hash status
    exact tagsNodupAll_updateRecord st.records hash _ (fun r hr => hr) hst
  · intro hash tag
    refine tagsNodupAll_updateRecord st.records hash _ ?_ hst
    intro r hr
    cases hc : r.tags.contains tag
    · simp at hc
      simpa using nodup_append_singleton r.tags tag hc hr
    · simpa using hr
  · intro hash c
    exact tagsNodupAll_updateRecord st.records hash _ (fun r hr => hr) hst
  · intro hash b
    exact tagsNodupAll_updateRecord st.records hash _ (fun r hr => hr) hst
  · intro hash p
    exact tagsNodupAll_updateRecord st.records hash _ (fun r hr => hr) hst
  · intro hash n
    exact tagsNodupAll_updateRecord st.records hash _ (fun r hr => hr) hst
  · intro hash step c now
    refine tagsNodupAll_updateRecord st.records hash _ ?_ hst
    intro r0 hr0
    cases c
    · simpa using hr0
    · cases hg : getBaseAction step with
      | none => simpa [hg] using hr0
      | some base =>
        cases hl : lookupLog r0.logs base with
        | none => simpa [hg, hl] using hr0
        | some e => simpa [hg, hl] using hr0
  · intro hash a msg stk now
    exact tagsNodupAll_updateRecord st.records hash _ (fun r hr => hr) hst
  · intro hash tag r hreg hnd
    have h1 : lookupRecord (addTag st hash tag).records hash
        = some (if r.tags.contains tag then r
                else { r with tags := r.tags ++ [tag] }) := by
      unfold addTag
      rw [lookupRecord_update_self, hreg, Option.map_some']
    by_cases hc : r.tags.contains tag
    · have hmem : tag ∈ r.tags := List.elem_iff.mp hc
      have h1' : lookupRecord (addTag st hash tag).records hash = some r := by
        rw [h1, if_pos hc]
      have h2 : lookupRecord (addTag (addTag st hash tag) hash tag).records hash
          = some r := by
        unfold addTag
        rw [lookupRecord_update_self]
        unfold addTag at h1'
        rw [h1', Option.map_some', if_pos hc]
      refine ⟨r, h2, ?_, hnd⟩
      have hle := List.nodup_iff_count_le_one.mp hnd tag
      have hge := List.count_pos_iff.mpr hmem
      omega
    · have hnmem : tag ∉ r.tags := fun hm => hc (List.elem_iff.mpr hm)
      have h1' : lookupRecord (addTag st hash tag).records hash
          = some ({ r with tags := r.tags ++ [tag] }) := by
        rw [h1, if_neg hc]
      have hc2 : ({ r with tags := r.tags ++ [tag] } : FileRecord).tags.contains tag := by
        apply List.elem_iff.mpr
        exact List.mem_append.mpr (Or.inr (List.mem_singleton_self tag))
      have h2 : lookupRecord (addTag (addTag st hash tag) hash tag).records hash
          = some ({ r with tags := r.tags ++ [tag] }) := by
        unfold addTag
        rw [lookupRecord_update_self]
        unfold addTag at h1'
        rw [h1', Option.map_some', if_pos hc2]
      refine ⟨{ r with tags := r.tags ++ [tag] }, h2, ?_, ?_⟩
      · show (r.tags ++ [tag]).count tag = 1
        rw [List.count_append, List.count_eq_zero_of_not_mem hnmem]
        simp
      · exact nodup_append_singleton r.tags tag hnmem hnd
  · intro hash ts r hreg
    refine ⟨{ r with tags := ts }, ?_, rfl⟩
    unfold setTags
    rw [lookupRecord_update_self, hreg, Option.map_some']

/-- C7 amended witness: the invariant hypothesis holds on the sample
registry, and adding `"x"` twice there yields exactly one occurrence. -/
theorem tags_nodup_amended_witness :
    tagsNodupAll stW ∧
    (∃ r2, lookupRecord (addTag (addTag stW "h1" "x") "h1" "x").records "h1"
        = some r2 ∧
      r2.tags.count "x" = 1 ∧ r2.tags.Nodup) := by
  have h := tags_nodup_amended stW (by decide)
  exact ⟨by decide, h.2.2.2.2.2.2.2.2.2.2.1 "h1" "x" rW (by decide) (by decide)⟩

/-- C8: `getStepErrors` lists exactly the error-carrying entries in the
insertion order of the events mapping (a subsequence of `logs`), and is empty
for unknown ids; `hasErrors` without a stage is true iff that sequence is
non-empty; `hasErrors` with a stage is true iff that stage's entry carries an
error; `getLastError` is the last element of the sequence, or none. -/
theorem error_queries_consistent (st : RMState) (hash : String) :
    (lookupRecord st.records hash = none →
      getStepErrors st hash = [] ∧ hasErrors st hash none = false ∧
      getLastError st hash = none) ∧
    (∀ r, lookupRecord st.records hash = some r →
      (∀ a oe, (a, oe) ∈ getStepErrors st hash ↔
        ∃ e, (a, e) ∈ r.logs ∧ oe = e.error ∧ e.error.isSome = true) ∧
      (∃ l, List.Sublist l r.logs ∧ (∀ p ∈ l, p.2.error.isSome = true) ∧
        (∀ p ∈ r.logs, p.2.error.isSome = true → p ∈ l) ∧
        getStepErrors st hash = l.map (fun p => (p.1, p.2.error)))) ∧
    (hasErrors st hash none = true ↔ getStepErrors st hash ≠ []) ∧
    (∀ stage r, lookupRecord st.records hash = some r →
      (hasErrors st hash (some stage) = true ↔
        ∃ e, lookupLog r.logs stage = some e ∧ e.error.isSome = true)) ∧
    getLastError st hash = (getStepErrors st hash).getLast? := by
  have hlast : getLastError st hash = (getStepErrors st hash).getLast? := by
    show (let errors := getStepErrors st hash;
      if 0 < errors.length then errors[errors.length - 1]? else none)
      = (getStepErrors st hash).getLast?
    by_cases h : 0 < (getStepErrors st hash).length
    · simp only [h, if_true]
      exact (List.getLast?_eq_getElem? _).symm
    · simp only [h, if_false]
      have hnil : getStepErrors st hash = [] :=
        List.length_eq_zero.mp (by omega)
      rw [hnil]
      rfl
  refine ⟨?_, ?_, ?_, ?_, hlast⟩
  · intro h
    refine ⟨?_, ?_, ?_⟩
    · unfold getStepErrors
      rw [h]
    · unfold hasErrors
      rw [h]
    · rw [hlast]
      unfold getStepErrors
      rw [h]
      rfl
  · intro r hreg
    constructor
    · intro a oe
      unfold getStepErrors
      rw [hreg]
      constructor
      · intro hmem
        obtain ⟨⟨a0, e0⟩, hmem0, heq⟩ := List.mem_map.mp hmem
        obtain ⟨hin, herr⟩ := List.mem_filter.mp hmem0
        obtain ⟨ha, hoe⟩ := Prod.mk.injEq .. ▸ heq
        refine ⟨e0, ?_, hoe.symm, by simpa using herr⟩
        rw [← ha]
        exact hin
      · rintro ⟨e, hin, rfl, herr⟩
        apply List.mem_map.mpr
        refine ⟨(a, e), List.mem_filter.mpr ⟨hin, by simpa using herr⟩, rfl⟩
    · refine ⟨r.logs.filter (fun p => p.2.error.isSome), List.filter_sublist _, ?_, ?_, ?_⟩
      · intro p hp
        simpa using (List.mem_filter.mp hp).2
      · intro p hp herr
        exact List.mem_filter.mpr ⟨hp, by simpa using herr⟩
      · unfold getStepErrors
        rw [hreg]
  · cases hrec : lookupRecord st.records hash with
    | none =>
      unfold hasErrors getStepErrors
      rw [hrec]
      simp
    | some r =>
      unfold hasErrors getStepErrors
      rw [hrec]
      rw [List.any_eq_true]
      constructor
      · rintro ⟨x, hx, hpx⟩ heq
        rw [List.map_eq_nil_iff, List.filter_eq_nil_iff] at heq
        exact heq x hx hpx
      · intro hne
        by_contra hno
        push_neg at hno
        apply hne
        rw [List.map_eq_nil_iff, List.filter_eq_nil_iff]
        intro a ha hpa
        exact absurd hpa (by simpa using hno a ha)
  · intro stage r hreg
    unfold hasErrors
    rw [hreg]
    cases hl : lookupLog r.logs stage with
    | none => simp [hl]
    | some e => simp [hl]

/-- Registry used by the C8 witness: the sample job with an error logged on
the `TAGGING` stage. -/
def stE : RMState := addError stW "h1" Action.TAGGING "timeout" none 4

/-- The record `stE` holds for `"h1"`. -/
def rE : FileRecord :=
  { rW with logs := [(Action.TAGGING,
      { timestamp := 4, completed := false,
        error := some { message := "timeout", stack := none, action := Action.TAGGING } })] }

/-- C8 witness: the error-query equivalences evaluated on a concrete
registry with one `TAGGING` error. -/
theorem error_queries_consistent_witness :
    (hasErrors stE "h1" none = true ↔ getStepErrors stE "h1" ≠ []) ∧
    getLastError stE "h1" = (getStepErrors stE "h1").getLast? ∧
    (hasErrors stE "h1" (some Action.TAGGING) = true ↔
      ∃ e, lookupLog rE.logs Action.TAGGING = some e ∧ e.error.isSome = true) :=
  ⟨(error_queries_consistent stE "h1").2.2.1,
    (error_queries_consistent stE "h1").2.2.2.2,
    (error_queries_consistent stE "h1").2.2.2.1 Action.TAGGING rE (by decide)⟩

theorem foldl_lastStep_keep (logs : List (Action × LogEntry)) :
    ∀ (rest : List (Action × LogEntry)) (cur : Action) (ce : LogEntry),
      lookupLog logs cur = some ce →
      (∀ p ∈ rest, p.2.timestamp ≤ ce.timestamp) →
      rest.foldl (lastStepStep logs) (some cur) = some cur := by
  intro rest
  induction rest with
  | nil => intro cur ce hc hle; rfl
  | cons p rest' ih =>
    intro cur ce hc hle
    have hstep : lastStepStep logs (some cur) p = some cur := by
      simp only [lastStepStep, hc]
      rw [if_neg (Nat.not_lt.mpr (hle p (List.mem_cons_self _ _)))]
    rw [List.foldl_cons, hstep]
    exact ih cur ce hc (fun q hq => hle q (List.mem_cons_of_mem _ hq))

theorem foldl_lastStep_argmax (logs : List (Action × LogEntry)) :
    ∀ (rest : List (Action × LogEntry)) (cur : Action) (ce : LogEntry),
      lookupLog logs cur = some ce →
      (∀ p ∈ rest, lookupLog logs p.1 = some p.2) →
      ∃ a ea, rest.foldl (lastStepStep logs) (some cur) = some a ∧
        lookupLog logs a = some ea ∧ ce.timestamp ≤ ea.timestamp ∧
        (∀ p ∈ rest, p.2.timestamp ≤ ea.timestamp) ∧
        ((a = cur ∧ ea = ce) ∨ (a, ea) ∈ rest) := by
  intro rest
  induction rest with
  | nil =>
    intro cur ce hc _
    exact ⟨cur, ce, rfl, hc, Nat.le_refl _,
      fun p hp => absurd hp (List.not_mem_nil p), Or.inl ⟨rfl, rfl⟩⟩
  | cons p rest' ih =>
    intro cur ce hc hcons
    by_cases hlt : ce.timestamp < p.2.timestamp
    · have hp1 : lookupLog logs p.1 = some p.2 := hcons p (List.mem_cons_self _ _)
      have hstep : lastStepStep logs (some cur) p = some p.1 := by
        simp only [lastStepStep, hc]
        rw [if_pos hlt]
      obtain ⟨a, ea, hfold, hla, hge, hall, hmem⟩ :=
        ih p.1 p.2 hp1 (fun q hq => hcons q (List.mem_cons_of_mem _ hq))
      refine ⟨a, ea, ?_, hla, Nat.le_trans (Nat.le_of_lt hlt) hge, ?_, ?_⟩
      · rw [List.foldl_cons, hstep]
        exact hfold
      · intro q hq
        rcases List.mem_cons.mp hq with rfl | hq'
        · exact hge
        · exact hall q hq'
      · rcases hmem with ⟨ha, hea⟩ | hmem'
        · right
          have hpe : (a, ea) = p := by rw [ha, hea]
          rw [hpe]
          exact List.mem_cons_self _ _
        · exact Or.inr (List.mem_cons_of_mem _ hmem')
    · have hstep : lastStepStep logs (some cur) p = some cur := by
        simp only [lastStepStep, hc]
        rw [if_neg hlt]
      obtain ⟨a, ea, hfold, hla, hge, hall, hmem⟩ :=
        ih cur ce hc (fun q hq => hcons q (List.mem_cons_of_mem _ hq))
      refine ⟨a, ea, ?_, hla, hge, ?_, ?_⟩
      · rw [List.foldl_cons, hstep]
        exact hfold
      · intro q hq
        rcases List.mem_cons.mp hq with rfl | hq'
        · exact Nat.le_trans (Nat.not_lt.mp hlt) hge
        · exact hall q hq'
      · rcases hmem with h | h
        · exact Or.inl h
        · exact Or.inr (List.mem_cons_of_mem _ h)

theorem foldl_lastStep_from_none (logs l1 : List (Action × LogEntry))
    (hcons : ∀ p ∈ l1, lookupLog logs p.1 = some p.2) :
    l1.foldl (lastStepStep logs) none = none ∨
    ∃ c ec, l1.foldl (lastStepStep logs) none = some c ∧
      lookupLog logs c = some ec ∧ (c, ec) ∈ l1 := by
  cases l1 with
  | nil => exact Or.inl rfl
  | cons p rest =>
    right
    have hp := hcons p (List.mem_cons_self _ _)
    obtain ⟨a, ea, hfold, hla, _, _, hmem⟩ := foldl_lastStep_argmax logs rest p.1 p.2
      hp (fun q hq => hcons q (List.mem_cons_of_mem _ hq))
    refine ⟨a, ea, ?_, hla, ?_⟩
    · rw [List.foldl_cons]
      exact hfold
    · rcases hmem with ⟨ha, hea⟩ | h
      · have hpe : (a, ea) = p := by rw [ha, hea]
        rw [hpe]
        exact List.mem_cons_self _ _
      · exact List.mem_cons_of_mem _ h

/-- C6: `getLastStep` returns none for an unknown id or an empty event
mapping, and otherwise a stage that has a logged entry whose timestamp is
maximal under the chronological order on instants (the source parses the
stored text back with `moment` and compares instants, never text). -/
theorem getLastStep_latest (st : RMState) (hash : String) :
    (lookupRecord st.records hash = none → getLastStep st hash = none) ∧
    (∀ r, lookupRecord st.records hash = some r → keysNodup r.logs →
      (r.logs = [] → getLastStep st hash = none) ∧
      (r.logs ≠ [] → ∃ a e, getLastStep st hash = some a ∧
        lookupLog r.logs a = some e ∧
        ∀ p ∈ r.logs, p.2.timestamp ≤ e.timestamp)) := by
  constructor
  · intro h
    unfold getLastStep
    rw [h]
  · intro r hreg hnd
    constructor
    · intro hnil
      unfold getLastStep
      rw [hreg]
      show (if r.logs.isEmpty = true then none
          else List.foldl (lastStepStep r.logs) none r.logs) = none
      rw [hnil]
      rfl
    · intro hne
      obtain ⟨p, rest, hcons⟩ := List.exists_cons_of_ne_nil hne
      have hnd' : keysNodup (p :: rest) := by
        rw [hcons] at hnd
        exact hnd
      have hp1 : lookupLog (p :: rest) p.1 = some p.2 :=
        lookupLog_of_mem_nodup _ hnd' p.1 p.2 (List.mem_cons_self _ _)
      obtain ⟨a, ea, hfold, hla, hge, hall, _⟩ :=
        foldl_lastStep_argmax (p :: rest) rest p.1 p.2 hp1
          (fun q hq => lookupLog_of_mem_nodup _ hnd' q.1 q.2
            (List.mem_cons_of_mem _ hq))
      refine ⟨a, ea, ?_, ?_, ?_⟩
      · unfold getLastStep
        rw [hreg]
        show (if r.logs.isEmpty = true then none
            else List.foldl (lastStepStep r.logs) none r.logs) = some a
        rw [hcons, if_neg (by simp), List.foldl_cons]
        exact hfold
      · rw [hcons]
        exact hla
      · intro q hq
        rw [hcons] at hq
        rcases List.mem_cons.mp hq with rfl | hq'
        · exact hge
        · exact hall q hq'

/-- Registry used by the C6 witness: two stages logged at distinct
seconds. -/
def stL : RMState :=
  addAction (addAction stW "h1" Action.CLEANUP false 3) "h1" Action.CLASSIFY false 5

/-- The record `stL` holds for `"h1"`. -/
def rL : FileRecord :=
  { rW with logs := [(Action.CLEANUP, { timestamp := 3, completed := false, error := none }),
      (Action.CLASSIFY, { timestamp := 5, completed := false, error := none })] }

/-- C6 witness: on the concrete two-entry registry `getLastStep` produces a
logged stage of maximal timestamp. -/
theorem getLastStep_latest_witness :
    ∃ a e, getLastStep stL "h1" = some a ∧ lookupLog rL.logs a = some e ∧
      ∀ p ∈ rL.logs, p.2.timestamp ≤ e.timestamp :=
  ((getLastStep_latest stL "h1").2 rL (by decide) (by decide)).2 (by decide)

/-- C10: with several entries sharing the maximal timestamp (the clock has
only second precision), `getLastStep` returns the earliest such entry in
insertion order: the fold only replaces its candidate on a strictly later
timestamp. -/
theorem getLastStep_tie_first (st : RMState) (hash : String) (r : FileRecord)
    (hreg : lookupRecord st.records hash = some r) (hnd : keysNodup r.logs)
    (l1 l2 : List (Action × LogEntry)) (a : Action) (e : LogEntry)
    (hsplit : r.logs = l1 ++ (a, e) :: l2)
    (hbefore : ∀ p ∈ l1, p.2.timestamp < e.timestamp)
    (hafter : ∀ p ∈ l2, p.2.timestamp ≤ e.timestamp) :
    getLastStep st hash = some a := by
  unfold getLastStep
  rw [hreg]
  show (if r.logs.isEmpty = true then none
      else List.foldl (lastStepStep r.logs) none r.logs) = some a
  rw [hsplit]
  rw [hsplit] at hnd
  have hae : lookupLog (l1 ++ (a, e) :: l2) a = some e :=
    lookupLog_of_mem_nodup _ hnd a e
      (List.mem_append.mpr (Or.inr (List.mem_cons_self _ _)))
  have hcons1 : ∀ p ∈ l1, lookupLog (l1 ++ (a, e) :: l2) p.1 = some p.2 :=
    fun q hq => lookupLog_of_mem_nodup _ hnd q.1 q.2
      (List.mem_append.mpr (Or.inl hq))
  have hisEmpty : (l1 ++ (a, e) :: l2).isEmpty = false := by
    cases l1 <;> rfl
  rw [if_neg (by rw [hisEmpty]; exact Bool.false_ne_true), List.foldl_append]
  rcases foldl_lastStep_from_none (l1 ++ (a, e) :: l2) l1 hcons1 with
    hnone | ⟨c, ec, hacc, hlc, hcl1⟩
  · rw [hnone, List.foldl_cons]
    exact foldl_lastStep_keep (l1 ++ (a, e) :: l2) l2 a e hae hafter
  · rw [hacc, List.foldl_cons]
    have hstep : lastStepStep (l1 ++ (a, e) :: l2) (some c) (a, e) = some a := by
      simp only [lastStepStep, hlc]
      rw [if_pos (hbefore (c, ec) hcl1)]
    rw [hstep]
    exact foldl_lastStep_keep (l1 ++ (a, e) :: l2) l2 a e hae hafter

/-- Registry used by the C10 witness: two stages logged within the same
second. -/
def stT : RMState :=
  addAction (addAction stW "h1" Action.CLEANUP false 5) "h1" Action.CLASSIFY false 5

/-- C10 witness: `CLEANUP` and `CLASSIFY` both logged at second 5 — the
earlier insertion, `CLEANUP`, wins the tie. -/
theorem getLastStep_tie_first_witness : getLastStep stT "h1" = some Action.CLEANUP :=
  getLastStep_tie_first stT "h1"
    ({ rW with logs := [(Action.CLEANUP, { timestamp := 5, completed := false, error := none }),
        (Action.CLASSIFY, { timestamp := 5, completed := false, error := none })] })
    (by decide) (by decide) []
    [(Action.CLASSIFY, { timestamp := 5, completed := false, error := none })]
    Action.CLEANUP { timestamp := 5, completed := false, error := none }
    (by decide) (by decide) (by decide)

end RecordManager
